import Mathlib

/-!
Shallow embedding of `src/bin/cryp.rs`, a command-line authenticated-encryption
utility (AES-256-CBC + HMAC-SHA256, encrypt-then-MAC, verify-then-decrypt).

Bytes are modelled as natural numbers (`Nat`), byte strings as `List Nat`.
The AES-256 block permutation and HMAC-SHA256 are external primitives of the
program (the `openssl` and `hmac` crates); they are modelled as abstract
function parameters `E`, `D` (block encrypt/decrypt keyed by the 32-byte key)
and `mac` (keyed MAC).  The CBC mode of operation with PKCS#7 padding, which
`openssl::symm::Crypter` with `Cipher::aes_256_cbc()` performs and on whose
behaviour the program relies, is embedded concretely over the abstract block
permutation.
-/

namespace Cryp

abbrev Bytes := List Nat

/-- Keyed block-cipher primitive: 32-byte key and 16-byte block to 16-byte
block.  Abstracts the AES-256 block permutation (encrypt or decrypt
direction). -/
abbrev BlockFn := Bytes → Bytes → Bytes

/-- Keyed MAC primitive: key and message to tag.  Abstracts HMAC-SHA256 from
the `hmac` crate. -/
abbrev MacFn := Bytes → Bytes → Bytes

/-- Byte-wise XOR of two equal-length byte strings (CBC chaining step). -/
def xorBytes (a b : Bytes) : Bytes := List.zipWith Nat.xor a b

/-- PKCS#7 padding to 16-byte blocks, as applied by the openssl crypter in
encrypt direction: append `r` copies of the byte `r`, where
`r = 16 - len % 16` (a full block of `16`s when the length is already a
multiple of 16). -/
def pad16 (data : Bytes) : Bytes :=
  data ++ List.replicate (16 - data.length % 16) (16 - data.length % 16)

/-- PKCS#7 unpadding, as applied by the openssl crypter in decrypt direction:
the last byte `b` must satisfy `1 ≤ b ≤ 16` and the last `b` bytes must all
equal `b`; they are removed.  Otherwise the padding is invalid and the
crypter reports an error (`none`). -/
def unpad16 (l : Bytes) : Option Bytes :=
  match l.getLast? with
  | none => none
  | some b =>
      if 1 ≤ b ∧ b ≤ 16 ∧ b ≤ l.length ∧ (l.drop (l.length - b)).all (· == b)
      then some (l.take (l.length - b))
      else none

/-- Split a byte string into consecutive 16-byte blocks (the last block may be
short if the length is not a multiple of 16; callers guard against that). -/
def toBlocks (l : Bytes) : List Bytes :=
  if h : l = [] then []
  else l.take 16 :: toBlocks (l.drop 16)
termination_by l.length
decreasing_by
  simp only [List.length_drop]
  have : 0 < l.length := List.length_pos.mpr h
  omega

/-- CBC encryption over a list of plaintext blocks: each block is XORed with
the previous ciphertext block (initially the IV) and sent through the block
cipher. -/
def cbcEncBlocks (E : BlockFn) (key prev : Bytes) : List Bytes → List Bytes
  | [] => []
  | b :: bs =>
      let c := E key (xorBytes b prev)
      c :: cbcEncBlocks E key c bs

/-- CBC decryption over a list of ciphertext blocks: each block is sent
through the block cipher in decrypt direction and XORed with the previous
ciphertext block (initially the IV). -/
def cbcDecBlocks (D : BlockFn) (key prev : Bytes) : List Bytes → List Bytes
  | [] => []
  | c :: cs => xorBytes (D key c) prev :: cbcDecBlocks D key c cs

/-- `encrypt_data` of `cryp.rs`: the openssl crypter in encrypt mode with
`Cipher::aes_256_cbc()` — PKCS#7-pad the input and run CBC over the block
cipher.  Never fails for well-formed key material. -/
def encrypt_data (E : BlockFn) (key iv data : Bytes) : Bytes :=
  (cbcEncBlocks E key iv (toBlocks (pad16 data))).flatten

/-- `decrypt_data` of `cryp.rs`: the openssl crypter in decrypt mode —
requires the input to be a nonempty multiple of the 16-byte block size
(otherwise `Crypter::finalize` reports "wrong final block length"), runs CBC
in decrypt direction, and validates and removes the PKCS#7 padding. -/
def decrypt_data (D : BlockFn) (key iv data : Bytes) : Option Bytes :=
  if data.length = 0 ∨ data.length % 16 ≠ 0 then none
  else unpad16 (cbcDecBlocks D key iv (toBlocks data)).flatten

/-- Key derivation of `cryp.rs` (lines 68–72): a 32-byte buffer of zeros into
which the first `min (len, 32)` secret bytes are copied — i.e. the secret
right-padded with zero bytes when shorter than 32 bytes, truncated to its
first 32 bytes when longer.  (Nat subtraction makes `32 - secret.length = 0`
in the long case.) -/
def deriveKey (secret : Bytes) : Bytes :=
  secret.take 32 ++ List.replicate (32 - secret.length) 0

/-- Outcome of the `dec` arm of `main` (lines 124–165): exit code 0 with the
plaintext written to the output file, exit code 1 (`VERIFICATION FAILURE`)
with no file written, or exit code 2 (`ERROR`) with no file written. -/
inductive DecOutcome where
  | written (pt : Bytes)
  | verificationFailure
  | error
deriving DecidableEq, Repr

/-- Exit code of a `dec` outcome. -/
def DecOutcome.exitCode : DecOutcome → Nat
  | .written _ => 0
  | .verificationFailure => 1
  | .error => 2

/-- The plaintext file write a `dec` outcome performs, if any. -/
def DecOutcome.output : DecOutcome → Option Bytes
  | .written pt => some pt
  | _ => none

/-- The `enc` arm of `main` (lines 84–122) with the freshly generated random
IV as a parameter: CBC-encrypt the input under `real_key`, prepend the IV,
and MAC the combined `iv || ciphertext` bytes under the same `real_key`.
Returns the envelope written to `-out` and the tag written to `-tag`. -/
def runEnc (E : BlockFn) (mac : MacFn) (real_key iv input_data : Bytes) :
    Bytes × Bytes :=
  let encrypted := encrypt_data E real_key iv input_data
  let final_data := iv ++ encrypted
  (final_data, mac real_key final_data)

/-- The `dec` arm of `main` (lines 124–165): reject envelopes shorter than
16 bytes, split off the 16-byte IV, recompute the MAC over the whole
`input_data` under `real_key`, compare with the tag file's bytes
(`Mac::verify_slice`, a constant-time equality that also fails on a
length mismatch), and only then CBC-decrypt. -/
def runDec (D : BlockFn) (mac : MacFn) (real_key input_data tag_data : Bytes) :
    DecOutcome :=
  if input_data.length < 16 then .error
  else
    let iv := input_data.take 16
    let encrypted := input_data.drop 16
    if tag_data ≠ mac real_key input_data then .verificationFailure
    else
      match decrypt_data D real_key iv encrypted with
      | none => .error
      | some decrypted => .written decrypted

/-- `main`'s encrypt path from the secret bytes onwards: derive `real_key`
once and use it as both the cipher key and the MAC key. -/
def encOp (E : BlockFn) (mac : MacFn) (secret iv input_data : Bytes) :
    Bytes × Bytes :=
  runEnc E mac (deriveKey secret) iv input_data

/-- `main`'s decrypt path from the secret bytes onwards: derive `real_key`
once and use it as both the cipher key and the MAC key. -/
def decOp (D : BlockFn) (mac : MacFn) (secret input_data tag_data : Bytes) :
    DecOutcome :=
  runDec D mac (deriveKey secret) input_data tag_data

/-- Result of `main`'s argument handling (lines 30–57).  `ok` carries the
mode string and the four file paths; `exit2` is `println!("ERROR");
process::exit(2)`; `panicked` is a Rust index-out-of-bounds panic on
`args[i + 1]` (the process aborts with exit code 101, writing nothing). -/
inductive ParseResult where
  | ok (mode key_file input_file output_file tag_file : String)
  | exit2
  | panicked
deriving DecidableEq, Repr

/-- The argument-parsing `while` loop of `main` (lines 44–57): `i` starts at
2 and advances by 2; `args[i]` selects the flag and `args[i + 1]` is read as
its value — out of bounds when the flag sits in the last position. -/
def parseLoop (args : List String) (i : Nat)
    (key_file input_file output_file tag_file : String) : ParseResult :=
  if h : i < args.length then
    let flag := args.get ⟨i, h⟩
    match args.get? (i + 1) with
    | none =>
        if flag = "-key" ∨ flag = "-in" ∨ flag = "-out" ∨ flag = "-tag"
        then .panicked else .exit2
    | some v =>
        if flag = "-key" then
          parseLoop args (i + 2) v input_file output_file tag_file
        else if flag = "-in" then
          parseLoop args (i + 2) key_file v output_file tag_file
        else if flag = "-out" then
          parseLoop args (i + 2) key_file input_file v tag_file
        else if flag = "-tag" then
          parseLoop args (i + 2) key_file input_file output_file v
        else .exit2
  else .ok (args.getD 1 "") key_file input_file output_file tag_file
termination_by args.length - i

/-- `main`'s argument handling (lines 30–57): `env::args()` including the
program name must have exactly 9 entries, then the flag pairs are parsed
starting at index 2. -/
def parseArgs (args : List String) : ParseResult :=
  if args.length ≠ 9 then .exit2
  else parseLoop args 2 "" "" "" ""

/-- Flip bit `j` of byte `i` of a byte string. -/
def flipBit (l : Bytes) (i j : Nat) : Bytes :=
  l.set i (l.getD i 0 ^^^ 2 ^ j)

/-! ### Supporting lemmas -/

theorem xorBytes_length (a b : Bytes) :
    (xorBytes a b).length = min a.length b.length :=
  List.length_zipWith Nat.xor a b

theorem xorBytes_xorBytes_cancel (a b : Bytes) (h : a.length ≤ b.length) :
    xorBytes (xorBytes a b) b = a := by
  induction a generalizing b with
  | nil => simp [xorBytes]
  | cons x xs ih =>
      cases b with
      | nil => simp at h
      | cons y ys =>
          simp only [xorBytes, List.zipWith_cons_cons]
          simp only [List.length_cons, Nat.add_le_add_iff_right] at h
          exact congrArg₂ List.cons (Nat.xor_cancel_right y x) (ih ys h)

theorem pad16_eq (data : Bytes) :
    pad16 data =
      data ++ List.replicate (16 - data.length % 16) (16 - data.length % 16) :=
  rfl

theorem pad16_length (data : Bytes) :
    (pad16 data).length = data.length + (16 - data.length % 16) := by
  simp [pad16]

theorem pad16_length_mod (data : Bytes) : (pad16 data).length % 16 = 0 := by
  rw [pad16_length]
  omega

theorem pad16_ne_nil (data : Bytes) : pad16 data ≠ [] := by
  intro h
  have := congrArg List.length h
  rw [pad16_length] at this
  simp at this
  omega

theorem unpad16_pad16 (data : Bytes) : unpad16 (pad16 data) = some data := by
  set r := 16 - data.length % 16 with hr
  have hr1 : 1 ≤ r := by omega
  have hr16 : r ≤ 16 := by omega
  have hlast : (pad16 data).getLast? = some r := by
    rw [pad16_eq, ← hr,
      List.getLast?_append_of_ne_nil _ (by simp; omega), List.getLast?_replicate]
    simp
    omega
  have hlen : (pad16 data).length = data.length + r := pad16_length data
  have hsub : data.length + r - r = data.length := by omega
  have hdrop : (pad16 data).drop ((pad16 data).length - r) = List.replicate r r := by
    rw [hlen, hsub, pad16_eq, ← hr]
    exact List.drop_left data _
  have htake : (pad16 data).take ((pad16 data).length - r) = data := by
    rw [hlen, hsub, pad16_eq, ← hr]
    exact List.take_left data _
  simp only [unpad16, hlast]
  rw [if_pos ⟨hr1, hr16, by omega, by rw [hdrop]; simp⟩, htake]

theorem toBlocks_nil : toBlocks [] = [] := by
  rw [toBlocks]
  simp

theorem toBlocks_append (b rest : Bytes) (hb : b.length = 16) :
    toBlocks (b ++ rest) = b :: toBlocks rest := by
  rw [toBlocks]
  have hne : b ++ rest ≠ [] := by
    intro h
    have := congrArg List.length h
    simp [hb] at this
  rw [dif_neg hne]
  congr 1
  · rw [← hb]
    exact List.take_left b rest
  · congr 1
    rw [← hb]
    exact List.drop_left b rest

theorem toBlocks_flatten (bs : List Bytes) (h : ∀ b ∈ bs, b.length = 16) :
    toBlocks bs.flatten = bs := by
  induction bs with
  | nil => simpa using toBlocks_nil
  | cons b bs ih =>
      rw [List.flatten_cons, toBlocks_append b _ (h b (by simp))]
      rw [ih (fun x hx => h x (by simp [hx]))]

theorem toBlocks_length_blocks (l : Bytes) (h : l.length % 16 = 0) :
    ∀ b ∈ toBlocks l, b.length = 16 := by
  induction l using toBlocks.induct with
  | case1 => simp [toBlocks_nil]
  | case2 l hne ih =>
      have hpos : 0 < l.length := List.length_pos.mpr hne
      have h16 : 16 ≤ l.length := by omega
      rw [toBlocks, dif_neg hne]
      intro b hb
      rcases List.mem_cons.mp hb with hb | hb
      · subst hb
        simp
        omega
      · refine ih ?_ b hb
        simp
        omega

theorem cbcEncBlocks_blockLength (E : BlockFn) (key : Bytes)
    (hE : ∀ k b, b.length = 16 → (E k b).length = 16) (prev : Bytes)
    (bs : List Bytes) (hprev : prev.length = 16)
    (hbs : ∀ b ∈ bs, b.length = 16) :
    ∀ c ∈ cbcEncBlocks E key prev bs, c.length = 16 := by
  induction bs generalizing prev with
  | nil => simp [cbcEncBlocks]
  | cons b bs ih =>
      have hc : (E key (xorBytes b prev)).length = 16 := by
        apply hE
        rw [xorBytes_length, hprev, hbs b (by simp)]
        simp
      intro c hc'
      rw [cbcEncBlocks] at hc'
      rcases List.mem_cons.mp hc' with h | h
      · exact h ▸ hc
      · exact ih _ hc (fun x hx => hbs x (by simp [hx])) c h

theorem cbcDecBlocks_cbcEncBlocks (E D : BlockFn) (key : Bytes)
    (hED : ∀ k b, b.length = 16 → D k (E k b) = b)
    (hE : ∀ k b, b.length = 16 → (E k b).length = 16)
    (prev : Bytes) (bs : List Bytes) (hprev : prev.length = 16)
    (hbs : ∀ b ∈ bs, b.length = 16) :
    cbcDecBlocks D key prev (cbcEncBlocks E key prev bs) = bs := by
  induction bs generalizing prev with
  | nil => simp [cbcEncBlocks, cbcDecBlocks]
  | cons b bs ih =>
      have hxlen : (xorBytes b prev).length = 16 := by
        rw [xorBytes_length, hprev, hbs b (by simp)]
        simp
      rw [cbcEncBlocks, cbcDecBlocks]
      congr 1
      · rw [hED key _ hxlen]
        apply xorBytes_xorBytes_cancel
        rw [hbs b (by simp), hprev]
      · exact ih _ (hE key _ hxlen) (fun x hx => hbs x (by simp [hx]))

theorem flatten_blocks_length (bs : List Bytes)
    (h : ∀ b ∈ bs, b.length = 16) : bs.flatten.length = 16 * bs.length := by
  induction bs with
  | nil => simp
  | cons b bs ih =>
      rw [List.flatten_cons, List.length_append, h b (by simp),
        ih (fun x hx => h x (by simp [hx]))]
      simp
      ring

theorem cbcEncBlocks_length (E : BlockFn) (key prev : Bytes)
    (bs : List Bytes) : (cbcEncBlocks E key prev bs).length = bs.length := by
  induction bs generalizing prev with
  | nil => rfl
  | cons b bs ih => rw [cbcEncBlocks]; simp [ih]

theorem flatten_toBlocks (l : Bytes) : (toBlocks l).flatten = l := by
  induction l using toBlocks.induct with
  | case1 => simp [toBlocks_nil]
  | case2 l hne ih =>
      rw [toBlocks, dif_neg hne, List.flatten_cons, ih, List.take_append_drop]

theorem toBlocks_ne_nil (l : Bytes) (h : l ≠ []) : toBlocks l ≠ [] := by
  rw [toBlocks, dif_neg h]
  simp

theorem toBlocks_count (l : Bytes) (h : l.length % 16 = 0) :
    (toBlocks l).length = l.length / 16 := by
  induction l using toBlocks.induct with
  | case1 => simp [toBlocks_nil]
  | case2 l hne ih =>
      have hpos : 0 < l.length := List.length_pos.mpr hne
      have h16 : 16 ≤ l.length := by omega
      rw [toBlocks, dif_neg hne]
      simp only [List.length_cons]
      rw [ih (by simp; omega)]
      simp only [List.length_drop]
      omega

/-- Round trip through the two openssl crypter invocations: decrypting
`encrypt_data`'s output with the same key and IV recovers the plaintext,
assuming only that the block cipher's decrypt direction inverts its encrypt
direction on 16-byte blocks and that the encrypt direction preserves block
length. -/
theorem decrypt_data_encrypt_data (E D : BlockFn) (key iv data : Bytes)
    (hED : ∀ k b, b.length = 16 → D k (E k b) = b)
    (hE : ∀ k b, b.length = 16 → (E k b).length = 16)
    (hiv : iv.length = 16) :
    decrypt_data D key iv (encrypt_data E key iv data) = some data := by
  have hbs : ∀ b ∈ toBlocks (pad16 data), b.length = 16 :=
    toBlocks_length_blocks _ (pad16_length_mod data)
  have hcs : ∀ c ∈ cbcEncBlocks E key iv (toBlocks (pad16 data)), c.length = 16 :=
    cbcEncBlocks_blockLength E key hE iv _ hiv hbs
  have hctlen : (encrypt_data E key iv data).length =
      16 * (cbcEncBlocks E key iv (toBlocks (pad16 data))).length :=
    flatten_blocks_length _ hcs
  have hbsne : toBlocks (pad16 data) ≠ [] :=
    toBlocks_ne_nil _ (pad16_ne_nil data)
  have hcslen : (cbcEncBlocks E key iv (toBlocks (pad16 data))).length =
      (toBlocks (pad16 data)).length := cbcEncBlocks_length E key iv _
  have hpos : 0 < (toBlocks (pad16 data)).length := List.length_pos.mpr hbsne
  rw [decrypt_data, if_neg]
  · rw [encrypt_data, toBlocks_flatten _ hcs,
      cbcDecBlocks_cbcEncBlocks E D key hED hE iv _ hiv hbs,
      flatten_toBlocks, unpad16_pad16]
  · rw [encrypt_data] at hctlen ⊢
    rw [hctlen, hcslen]
    push_neg
    constructor
    · omega
    · omega

theorem flipBit_length (l : Bytes) (i j : Nat) :
    (flipBit l i j).length = l.length := List.length_set l i _

theorem flipBit_ne (l : Bytes) (i j : Nat) (h : i < l.length) :
    flipBit l i j ≠ l := by
  intro heq
  have hval : (flipBit l i j).getD i 0 = l.getD i 0 ^^^ 2 ^ j := by
    rw [flipBit, List.getD_eq_getElem _ 0 (by rw [List.length_set]; exact h)]
    simp [h]
  rw [heq] at hval
  have h2 := congrArg (fun t => l.getD i 0 ^^^ t) hval.symm
  simp only [Nat.xor_cancel_left, Nat.xor_self] at h2
  exact absurd h2 (by positivity)

/-! ### Concrete primitive instances (used only to exercise the theorems on
concrete inputs; the theorems themselves hold for arbitrary primitives) -/

/-- A trivial "block cipher" whose encrypt and decrypt directions are both
the identity. -/
def idBlock : BlockFn := fun _ b => b

/-- A trivial MAC returning a fixed one-byte tag. -/
def constMac : MacFn := fun _ _ => [1]

/-- A trivial MAC returning the first 32 bytes of the message. -/
def takeMac : MacFn := fun _ m => m.take 32

/-- A trivial MAC returning a fixed 32-byte tag. -/
def zeroMac : MacFn := fun _ _ => List.replicate 32 0

/-- The derived key always has exactly 32 bytes. -/
theorem deriveKey_length (secret : Bytes) : (deriveKey secret).length = 32 := by
  rw [deriveKey, List.length_append, List.length_take, List.length_replicate]
  omega

/-- When the envelope is long enough to pass the length guard and the tag
bytes differ from the recomputed MAC, the decrypt arm stops with
`verificationFailure`, whatever the block-cipher decrypt function is. -/
theorem runDec_tag_mismatch (D : BlockFn) (mac : MacFn)
    (real_key input_data tag_data : Bytes) (h16 : 16 ≤ input_data.length)
    (hne : tag_data ≠ mac real_key input_data) :
    runDec D mac real_key input_data tag_data = .verificationFailure := by
  rw [runDec, if_neg (by omega)]
  simp only [if_pos hne]

/-! ### Claim theorems -/

/-- C1: for every envelope, tag and key material, the decrypt operation
recomputes the MAC over the authenticated payload (the full `input_data`
bytes) and compares it with the supplied tag before any decryption step;
whenever the comparison fails, the outcome is `VerificationFailure` (exit
code 1), no plaintext output is written, and the block-cipher decryption is
never invoked — the outcome is the same for every block-cipher decrypt
function `D`. -/
theorem decrypt_verifies_before_decrypting (mac : MacFn)
    (real_key input_data tag_data : Bytes) (h16 : 16 ≤ input_data.length)
    (hne : tag_data ≠ mac real_key input_data) :
    ∀ D : BlockFn,
      runDec D mac real_key input_data tag_data = .verificationFailure ∧
      (runDec D mac real_key input_data tag_data).exitCode = 1 ∧
      (runDec D mac real_key input_data tag_data).output = none := by
  intro D
  have hrun := runDec_tag_mismatch D mac real_key input_data tag_data h16 hne
  exact ⟨hrun, by rw [hrun]; rfl, by rw [hrun]; rfl⟩

theorem decrypt_verifies_before_decrypting_witness :
    runDec idBlock constMac [] (List.replicate 16 0) [] = .verificationFailure :=
  (decrypt_verifies_before_decrypting constMac [] (List.replicate 16 0) []
    (by decide) (by decide) idBlock).1

/-- C9: during decrypt, an input envelope shorter than 16 bytes is rejected
with exit code 2 before the MAC is ever computed or compared — the outcome
is the same for every MAC function and every tag-file content — so such an
input never yields `VerificationFailure` (exit code 1). -/
theorem short_envelope_rejected_before_mac (real_key input_data : Bytes)
    (h : input_data.length < 16) :
    ∀ (D : BlockFn) (mac : MacFn) (tag_data : Bytes),
      runDec D mac real_key input_data tag_data = .error ∧
      (runDec D mac real_key input_data tag_data).exitCode = 2 ∧
      runDec D mac real_key input_data tag_data ≠ .verificationFailure := by
  intro D mac tag_data
  have hrun : runDec D mac real_key input_data tag_data = .error := by
    rw [runDec, if_pos h]
  exact ⟨hrun, by rw [hrun]; rfl, by rw [hrun]; exact fun hc => nomatch hc⟩

theorem short_envelope_rejected_before_mac_witness :
    runDec idBlock takeMac [] [0] [5] = .error :=
  ((short_envelope_rejected_before_mac [] [0] (by decide)) idBlock takeMac [5]).1

/-- C4: key derivation under the raw-fit policy always yields exactly
32 bytes: the secret right-padded with zero bytes when shorter than 32
bytes, its first 32 bytes when longer; and the encrypt operation keys its
MAC with those same derived bytes. -/
theorem derive_raw_fit (secret : Bytes) :
    (deriveKey secret).length = 32 ∧
    (secret.length ≤ 32 →
      deriveKey secret = secret ++ List.replicate (32 - secret.length) 0) ∧
    (32 ≤ secret.length → deriveKey secret = secret.take 32) ∧
    (∀ (E : BlockFn) (mac : MacFn) (iv pt : Bytes),
      (encOp E mac secret iv pt).2 =
        mac (deriveKey secret) (encOp E mac secret iv pt).1) := by
  refine ⟨deriveKey_length secret, ?_, ?_, ?_⟩
  · intro hle
    rw [deriveKey, List.take_of_length_le hle]
  · intro hge
    have : 32 - secret.length = 0 := by omega
    rw [deriveKey, this]
    simp
  · intro E mac iv pt
    rfl

theorem derive_raw_fit_witness :
    deriveKey [1, 2, 3] = [1, 2, 3] ++ List.replicate 29 0 :=
  (derive_raw_fit [1, 2, 3]).2.1 (by decide)

/-- C6: for every byte sequence supplied as the shared secret, of arbitrary
length and content, key derivation is a total structural operation (no
error path) and produces key material of exactly the 32 bytes AES-256 and
the HMAC keying interface require. -/
theorem derive_total_exact_size (secret : Bytes) :
    (deriveKey secret).length = 32 ∧
    ∀ (E D : BlockFn) (mac : MacFn) (iv pt input_data tag_data : Bytes),
      encOp E mac secret iv pt = runEnc E mac (deriveKey secret) iv pt ∧
      decOp D mac secret input_data tag_data =
        runDec D mac (deriveKey secret) input_data tag_data :=
  ⟨deriveKey_length secret, fun _ _ _ _ _ _ _ => ⟨rfl, rfl⟩⟩

/-- C5: during decrypt, after successful tag verification the payload is
split into a 16-byte IV and a ciphertext of the remaining bytes; whenever
that ciphertext is shorter than one 16-byte cipher block or not a multiple
of the block size, the operation fails with exit code 2 and writes no
plaintext. -/
theorem malformed_ciphertext_after_verification (D : BlockFn) (mac : MacFn)
    (real_key input_data tag_data : Bytes) (h16 : 16 ≤ input_data.length)
    (htag : tag_data = mac real_key input_data)
    (hbad : input_data.length - 16 < 16 ∨ (input_data.length - 16) % 16 ≠ 0) :
    (input_data.take 16).length = 16 ∧
    runDec D mac real_key input_data tag_data = .error ∧
    (runDec D mac real_key input_data tag_data).exitCode = 2 ∧
    (runDec D mac real_key input_data tag_data).output = none := by
  have hsplit : (input_data.take 16).length = 16 := by
    rw [List.length_take]
    omega
  have hrun : runDec D mac real_key input_data tag_data = .error := by
    rw [runDec, if_neg (by omega)]
    simp only [htag, ne_eq, not_true_eq_false, if_false, ite_false]
    rw [decrypt_data, if_pos]
    rw [List.length_drop]
    omega
  exact ⟨hsplit, hrun, by rw [hrun]; rfl, by rw [hrun]; rfl⟩

theorem malformed_ciphertext_after_verification_witness :
    runDec idBlock takeMac [] (List.replicate 17 0) (List.replicate 17 0) = .error :=
  (malformed_ciphertext_after_verification idBlock takeMac []
    (List.replicate 17 0) (List.replicate 17 0) (by decide) (by decide)
    (by decide)).2.1

/-- C2: for every plaintext byte sequence (including the empty one) and
every shared secret, decrypting the envelope and tag produced by encrypting
the plaintext under the key material derived from that secret, using the
key material derived from the same secret, writes back exactly the original
plaintext with exit code 0.  The only assumptions are that the block
cipher's decrypt direction inverts its encrypt direction on 16-byte blocks
and preserves block length, and that the IV is 16 bytes (as `rand_bytes`
produces). -/
theorem encrypt_decrypt_roundtrip (E D : BlockFn) (mac : MacFn)
    (secret iv pt : Bytes)
    (hED : ∀ k b, b.length = 16 → D k (E k b) = b)
    (hE : ∀ k b, b.length = 16 → (E k b).length = 16)
    (hiv : iv.length = 16) :
    decOp D mac secret (encOp E mac secret iv pt).1
      (encOp E mac secret iv pt).2 = .written pt := by
  have henv : (encOp E mac secret iv pt).1 =
      iv ++ encrypt_data E (deriveKey secret) iv pt := rfl
  have htag : (encOp E mac secret iv pt).2 =
      mac (deriveKey secret) (iv ++ encrypt_data E (deriveKey secret) iv pt) := rfl
  have hlen : (iv ++ encrypt_data E (deriveKey secret) iv pt).length =
      16 + (encrypt_data E (deriveKey secret) iv pt).length := by
    rw [List.length_append, hiv]
  have htake : (iv ++ encrypt_data E (deriveKey secret) iv pt).take 16 = iv := by
    rw [← hiv]
    exact List.take_left iv _
  have hdrop : (iv ++ encrypt_data E (deriveKey secret) iv pt).drop 16 =
      encrypt_data E (deriveKey secret) iv pt := by
    rw [← hiv]
    exact List.drop_left iv _
  rw [decOp, henv, htag, runDec, if_neg (by omega)]
  simp only [ne_eq, not_true_eq_false, if_false, htake, hdrop,
    decrypt_data_encrypt_data E D (deriveKey secret) iv pt hED hE hiv]

theorem encrypt_decrypt_roundtrip_witness :
    decOp idBlock takeMac []
      (encOp idBlock takeMac [] (List.replicate 16 7) [5, 6, 7]).1
      (encOp idBlock takeMac [] (List.replicate 16 7) [5, 6, 7]).2 =
      .written [5, 6, 7] :=
  encrypt_decrypt_roundtrip idBlock idBlock takeMac [] (List.replicate 16 7)
    [5, 6, 7] (fun _ _ _ => rfl) (fun _ _ h => h) (by decide)

/-- C7: for every plaintext and key material, the encrypt operation emits an
envelope equal to the 16-byte IV prepended to the CBC, PKCS#7-padded
ciphertext of the plaintext, and a separate tag equal to the 32-byte MAC
computed over exactly those envelope bytes (`iv || ciphertext`) under the
same key; the envelope's length is 16 (IV) plus the padded ciphertext
length `16 * (pt.length / 16 + 1)`. -/
theorem encrypt_envelope_structure (E : BlockFn) (mac : MacFn)
    (real_key iv pt : Bytes) (hiv : iv.length = 16)
    (hE : ∀ k b, b.length = 16 → (E k b).length = 16)
    (hmac32 : ∀ k m, (mac k m).length = 32) :
    (runEnc E mac real_key iv pt).1 = iv ++ encrypt_data E real_key iv pt ∧
    (runEnc E mac real_key iv pt).2 =
      mac real_key (iv ++ encrypt_data E real_key iv pt) ∧
    (runEnc E mac real_key iv pt).2.length = 32 ∧
    (runEnc E mac real_key iv pt).1.length = 16 + 16 * (pt.length / 16 + 1) := by
  have hbs : ∀ b ∈ toBlocks (pad16 pt), b.length = 16 :=
    toBlocks_length_blocks _ (pad16_length_mod pt)
  have hcs : ∀ c ∈ cbcEncBlocks E real_key iv (toBlocks (pad16 pt)), c.length = 16 :=
    cbcEncBlocks_blockLength E real_key hE iv _ hiv hbs
  have hctlen : (encrypt_data E real_key iv pt).length = 16 * (pt.length / 16 + 1) := by
    rw [encrypt_data, flatten_blocks_length _ hcs, cbcEncBlocks_length,
      toBlocks_count _ (pad16_length_mod pt), pad16_length]
    omega
  refine ⟨rfl, rfl, hmac32 _ _, ?_⟩
  show (iv ++ encrypt_data E real_key iv pt).length = _
  rw [List.length_append, hiv, hctlen]

theorem encrypt_envelope_structure_witness :
    (runEnc idBlock zeroMac (deriveKey []) (List.replicate 16 0) []).2 =
      zeroMac (deriveKey [])
        (List.replicate 16 0 ++
          encrypt_data idBlock (deriveKey []) (List.replicate 16 0) []) :=
  (encrypt_envelope_structure idBlock zeroMac (deriveKey [])
    (List.replicate 16 0) [] (by decide) (fun _ _ h => h)
    (fun k m => by simp [zeroMac])).2.1

/-- C10: in every invocation, encrypt and decrypt use one and the same
32-byte derived key both as the block-cipher key and as the MAC key: the
envelope is encrypted and the tag is MACed under the same `deriveKey
secret`, and decrypt both verifies the tag and decrypts under that same
`deriveKey secret`; no separate MAC key is ever derived. -/
theorem single_key_for_cipher_and_mac (E D : BlockFn) (mac : MacFn)
    (secret iv pt input_data tag_data : Bytes) :
    (deriveKey secret).length = 32 ∧
    (encOp E mac secret iv pt).1 =
      iv ++ encrypt_data E (deriveKey secret) iv pt ∧
    (encOp E mac secret iv pt).2 =
      mac (deriveKey secret) (iv ++ encrypt_data E (deriveKey secret) iv pt) ∧
    decOp D mac secret input_data tag_data =
      runDec D mac (deriveKey secret) input_data tag_data ∧
    (∀ pt', 16 ≤ input_data.length →
      tag_data = mac (deriveKey secret) input_data →
      decrypt_data D (deriveKey secret) (input_data.take 16)
          (input_data.drop 16) = some pt' →
      decOp D mac secret input_data tag_data = .written pt') := by
  refine ⟨deriveKey_length secret, rfl, rfl, rfl, ?_⟩
  intro pt' h16 htag hdec
  rw [decOp, runDec, if_neg (by omega), htag]
  simp only [ne_eq, not_true_eq_false, if_false, hdec]

theorem single_key_for_cipher_and_mac_witness :
    decOp idBlock takeMac []
      (List.replicate 16 0 ++
        encrypt_data idBlock (deriveKey []) (List.replicate 16 0) [9])
      (takeMac (deriveKey [])
        (List.replicate 16 0 ++
          encrypt_data idBlock (deriveKey []) (List.replicate 16 0) [9])) =
      .written [9] := by
  refine (single_key_for_cipher_and_mac idBlock idBlock takeMac []
    (List.replicate 16 0) [9] _ _).2.2.2.2 [9] (by simp) rfl ?_
  have htake : (List.replicate 16 (0 : Nat) ++
      encrypt_data idBlock (deriveKey []) (List.replicate 16 0) [9]).take 16 =
      List.replicate 16 0 := by
    conv in List.take 16 _ => rw [show (16 : Nat) = (List.replicate 16 (0 : Nat)).length by simp]
    exact List.take_left _ _
  have hdrop : (List.replicate 16 (0 : Nat) ++
      encrypt_data idBlock (deriveKey []) (List.replicate 16 0) [9]).drop 16 =
      encrypt_data idBlock (deriveKey []) (List.replicate 16 0) [9] := by
    conv in List.drop 16 _ => rw [show (16 : Nat) = (List.replicate 16 (0 : Nat)).length by simp]
    exact List.drop_left _ _
  rw [htake, hdrop]
  exact decrypt_data_encrypt_data idBlock idBlock (deriveKey [])
    (List.replicate 16 0) [9] (fun _ _ _ => rfl) (fun _ _ h => h) (by decide)

/-- C8: for every valid encrypted artifact (an envelope of at least 16
bytes whose tag is the MAC of the envelope), flipping any single bit of the
stored tag makes the decrypt invocation with the same key terminate with
`VerificationFailure` and write no plaintext — unconditionally; and
flipping any single bit of the stored envelope does the same whenever the
artifact is non-degenerate for that flip, i.e. the MAC of the flipped
envelope differs from the MAC of the original (for HMAC-SHA256 this fails
only on a MAC collision). -/
theorem tamper_detection (D : BlockFn) (mac : MacFn)
    (real_key input_data tag_data : Bytes) (h16 : 16 ≤ input_data.length)
    (htag : tag_data = mac real_key input_data) :
    (∀ i j, i < tag_data.length → j < 8 →
      runDec D mac real_key input_data (flipBit tag_data i j) =
        .verificationFailure ∧
      (runDec D mac real_key input_data (flipBit tag_data i j)).output = none) ∧
    (∀ i j, i < input_data.length → j < 8 →
      mac real_key (flipBit input_data i j) ≠ mac real_key input_data →
      runDec D mac real_key (flipBit input_data i j) tag_data =
        .verificationFailure ∧
      (runDec D mac real_key (flipBit input_data i j) tag_data).output = none) := by
  constructor
  · intro i j hi _
    have hne : flipBit tag_data i j ≠ mac real_key input_data := by
      rw [← htag]
      exact flipBit_ne tag_data i j hi
    have h := runDec_tag_mismatch D mac real_key input_data
      (flipBit tag_data i j) h16 hne
    exact ⟨h, by rw [h]; rfl⟩
  · intro i j _ _ hmacne
    have h16' : 16 ≤ (flipBit input_data i j).length := by
      rw [flipBit_length]
      exact h16
    have hne : tag_data ≠ mac real_key (flipBit input_data i j) := by
      rw [htag]
      exact fun hc => hmacne hc.symm
    have h := runDec_tag_mismatch D mac real_key
      (flipBit input_data i j) tag_data h16' hne
    exact ⟨h, by rw [h]; rfl⟩

theorem tamper_detection_witness :
    runDec idBlock takeMac [] (List.replicate 16 1)
      (flipBit (List.replicate 16 1) 0 0) = .verificationFailure :=
  ((tamper_detection idBlock takeMac [] (List.replicate 16 1)
    (List.replicate 16 1) (by decide) (by decide)).1 0 0 (by decide)
    (by decide)).1

/-- Starting from an even index `i ≥ 2` within a 9-entry argument vector,
the parsing loop can never return `ok`: it always ends in `exit2` (an
unrecognized flag) or `panicked` (a recognized flag in the last slot reads
`args[i + 1]` out of bounds). -/
theorem parseLoop_argc9_not_ok (args : List String) (h9 : args.length = 9) :
    ∀ n i kf inf outf tf, 9 - i ≤ n → i % 2 = 0 → i ≤ 8 →
      ∀ m a b c d, parseLoop args i kf inf outf tf ≠ .ok m a b c d := by
  intro n
  induction n with
  | zero =>
      intro i _ _ _ _ hn _ hi8
      omega
  | succ n ih =>
      intro i kf inf outf tf hn hieven hi8 m a b c d hok
      have hlt : i < args.length := by omega
      rw [parseLoop, dif_pos hlt] at hok
      cases hget : args.get? (i + 1) with
      | none =>
          simp only [hget] at hok
          split at hok
          · exact nomatch hok
          · exact nomatch hok
      | some v =>
          have hi1 : i + 1 < args.length := by
            by_contra hc
            rw [List.get?_eq_none.mpr (by omega)] at hget
            exact nomatch hget
          have hi6 : i ≤ 6 := by omega
          simp only [hget] at hok
          split at hok
          · exact ih (i + 2) v inf outf tf (by omega) (by omega) (by omega)
              m a b c d hok
          · split at hok
            · exact ih (i + 2) kf v outf tf (by omega) (by omega) (by omega)
                m a b c d hok
            · split at hok
              · exact ih (i + 2) kf inf v tf (by omega) (by omega) (by omega)
                  m a b c d hok
              · split at hok
                · exact ih (i + 2) kf inf outf v (by omega) (by omega)
                    (by omega) m a b c d hok
                · exact nomatch hok

/-- C3 (code bug): the spec's exit-code contract — 0 on success, 1 on
verification failure, 2 on every other failure, and no other exit codes —
is broken by `main`'s argument handling.  `main` demands
`args.len() == 9`, but the documented invocation
`cryp <mode> -key <p> -in <p> -out <p> -tag <p>` has 10 `argv` entries
(program name included), so every documented well-formed invocation exits 2
and no invocation can ever reach the enc/dec operations (exit codes 0 and 1
are unreachable); moreover a 9-entry `argv` ending in a recognized flag
panics on the out-of-bounds `args[i + 1]` (Rust aborts with exit code
101). -/
theorem exit_code_argc_bug :
    parseArgs ["cryp", "enc", "-key", "k", "-in", "pt", "-out", "ct",
      "-tag", "tg"] = .exit2 ∧
    parseArgs ["cryp", "enc", "-key", "k", "-in", "pt", "-out", "ct",
      "-tag"] = .panicked ∧
    (∀ (args : List String) m a b c d, parseArgs args ≠ .ok m a b c d) := by
  refine ⟨by simp +decide [parseArgs], by simp +decide [parseArgs, parseLoop], ?_⟩
  intro args m a b c d
  rw [parseArgs]
  by_cases h9 : args.length = 9
  · rw [if_neg (by omega)]
    exact parseLoop_argc9_not_ok args h9 7 2 "" "" "" "" (by omega) (by omega)
      (by omega) m a b c d
  · rw [if_pos h9]
    exact fun hc => nomatch hc

end Cryp
